import Mathlib

/-!
Verification of the bggp3 repository (clang target-triple crash search).

The development shallowly embeds the three Python source files:

* `try_triples.py` — axis catalogs (`ClangArch`, `ClangVendor`, `ClangOS`,
  `ClangEnvironment`), triple assembly (`generate_triples`), the probe
  classifier (`check_valid_triple`), the bounded-concurrency scheduler in
  `main`, and the temp-file creation/removal.
* `analyze_results.py` — the results-log reader, the stack-trace regex
  `rb"\#[0-9]+\s+0x[0-9a-f]+\s+([a-zA-Z_0-9:~]+)"` (reified as an explicit
  maximal-munch scanner, which agrees with the regex because every adjacent
  pair of sub-patterns has disjoint character classes), and the dictionary
  grouping of crashes by extracted signature.

Bytes are modelled as `List Nat` (each entry a byte value); text lines are
also `List Nat` (Unicode code points, which coincide with bytes on the ASCII
fragment the program produces). Raised Python exceptions are modelled as
`Option.none` results.
-/

namespace BGGP3

/-! ## Probe classification (`check_valid_triple`, try_triples.py lines 264-303)
The Python coroutine launches clang, drains both pipes concurrently, and then
classifies.  Its decision depends only on the exit code and the two captured
streams, so it is embedded as a pure function of those three values.  The
returned pair mirrors the Python `Tuple[bool, str]`: `(False, out + err)` on a
detected internal-compiler-error report, `(returncode == 0, b"")` otherwise. -/

/-- The sentinel substring `b"PLEASE"` that clang prints in its own
internal-error self-report ("PLEASE submit a bug report ..."). -/
def SENTINEL : List Nat := [80, 76, 69, 65, 83, 69]

/-- `check_valid_triple`'s classification of one probe, as a pure function of
the exit code and the two captured streams: `if b"PLEASE" in out or b"PLEASE"
in err: return False, out + err` and otherwise `return res.returncode == 0, ""`. -/
def check_valid_triple (returncode : Int) (out err : List Nat) : Bool × List Nat :=
  if SENTINEL <:+: out ∨ SENTINEL <:+: err then (false, out ++ err)
  else (returncode = 0, [])

/-! ## Temp-file creation and removal (`main`, try_triples.py lines 336-372)
`main` creates `tempfile = Path(f"/dev/shm/test/{uuid1()}.c")`, writes the
input program, and after the drain calls `unlink(tempfile.name)`.
`pathlib.PurePath.name` is the final path component (everything after the
last `/`), and `os.unlink` resolves a relative argument against the current
working directory. -/

/-- The temporary-input path the run creates: `f"/dev/shm/test/{uuid1()}.c"`. -/
def tempfilePath (uuid : List Nat) : List Nat :=
  [47, 100, 101, 118, 47, 115, 104, 109, 47, 116, 101, 115, 116, 47] ++ uuid ++ [46, 99]

/-- `pathlib.PurePath.name`: the final component of the path, i.e. the suffix
after the last `/` (byte 47). -/
def pathName (p : List Nat) : List Nat :=
  ((p.reverse).takeWhile (fun b => b ≠ 47)).reverse

/-- How `os.unlink` resolves its argument: absolute paths (leading `/`) are
used as given, relative paths are resolved against the current working
directory. -/
def resolveUnlink (cwd rel : List Nat) : List Nat :=
  match rel with
  | 47 :: _ => rel
  | _ => cwd ++ [47] ++ rel

/-- The path `main` actually unlinks after the drain: `unlink(tempfile.name)`. -/
def unlinkedPath (cwd : List Nat) (uuid : List Nat) : List Nat :=
  resolveUnlink cwd (pathName (tempfilePath uuid))

/-! ## The bounded-concurrency scheduler (`main`, try_triples.py lines 349-370)
`main` keeps a set `tasks` of in-flight probes with cap `TASK_COUNT = 32`:
```
async for triple in generate_triples():
    while len(tasks) >= TASK_COUNT:
        done, tasks = await wait(tasks, return_when=FIRST_COMPLETED)
        for task in done: await task; ...
    task = create_task(check_triple(triple, i)); ...; tasks.add(task)
await wait(tasks)
```
The embedding replays this loop over an explicit list of pending specifiers
(standing for the generator's remaining output), identifying each probe task
with its specifier.  The cooperative, single-threaded model lets completions
happen at the scheduler's `wait` calls: an `oracle` chooses, per `wait` call,
how many of the outstanding probes finish (clamped to a nonempty prefix, as
`FIRST_COMPLETED` returns a nonempty `done` set).  `asyncio.wait` on an empty
set raises `ValueError`, modelled as `none`.  The final component of the
result records the running maximum of the outstanding-probe count, sampled
after every launch (the only point where the count grows). -/

/-- One run of `main`'s task loop: `pending` is the not-yet-submitted input,
`tasks` the outstanding probes, `completed` the observed results so far,
`maxOut` the peak outstanding count so far; returns the final completion
list and the peak outstanding count, or `none` when `asyncio.wait` is handed
an empty set. -/
def runScheduler (K : Nat) (oracle : Nat → Nat) (t : Nat)
    (pending tasks completed : List Nat) (maxOut : Nat) : Option (List Nat × Nat) :=
  match pending with
  | [] =>
    if tasks.isEmpty then none else some (completed ++ tasks, maxOut)
  | p :: ps =>
    if K ≤ tasks.length then
      if tasks.length = 0 then none
      else
        let k := min (max (oracle t) 1) tasks.length
        runScheduler K oracle (t + 1) (p :: ps) (tasks.drop k)
          (completed ++ tasks.take k) maxOut
    else
      runScheduler K oracle t ps (tasks ++ [p]) completed (max maxOut (tasks.length + 1))
termination_by (pending.length, tasks.length)
decreasing_by
  · apply Prod.Lex.right
    simp only [List.length_drop]
    omega
  · apply Prod.Lex.left
    simp

/-! ## Specifier assembly (`generate_triples`, try_triples.py lines 306-329)
`generate_triples` walks `product(archs, vendors, oses, envs)` and assembles
each triple with conditional appends:
```
triple = ""
if arch: triple += arch
if vendor: triple += ("-" if triple else "") + vendor
if op_s: triple += ("-" if triple else "") + op_s
if environ: triple += ("-" if triple else "") + environ
```
The four axis catalogs are the `.value` lists of the `ClangArch`,
`ClangVendor`, `ClangOS` and `ClangEnvironment` enums, in definition order,
each ending with the absent value `""` (`NONE`).  Several catalog entries
carry stray trailing commas or dots (e.g. `"mipsr6el,"`, `"spirv32v1.2,"`) —
they are transcribed exactly as the source has them.  `joinDash` is the
specification-side description of the result: the non-absent parts joined by
single `-` separators. -/

/-- The triple-assembly loop body of `generate_triples`: conditional appends
of the four axis values with a `-` separator whenever the accumulator is
already non-empty. -/
def generateTriple (arch vendor op_s environ : String) : String :=
  let triple : String := ""
  let triple := if arch ≠ "" then triple ++ arch else triple
  let triple := if vendor ≠ "" then triple ++ ((if triple ≠ "" then "-" else "") ++ vendor) else triple
  let triple := if op_s ≠ "" then triple ++ ((if triple ≠ "" then "-" else "") ++ op_s) else triple
  let triple := if environ ≠ "" then triple ++ ((if triple ≠ "" then "-" else "") ++ environ) else triple
  triple

/-- One conditional-append step of the assembly, on the character-list view:
skip an absent part, start with a present part, otherwise append `-` then the
part. -/
def addPart (acc p : List Char) : List Char :=
  if p = [] then acc else if acc = [] then p else acc ++ '-' :: p

/-- Specification-side description of the assembled string: the parts joined
by single `-` separators. -/
def joinDash : List (List Char) → List Char
  | [] => []
  | [p] => p
  | p :: q :: ps => p ++ '-' :: joinDash (q :: ps)

/-- `ClangArch` member values in definition order (`list(map(lambda x:
x.value, ClangArch))`), trailing-comma typos included, ending with the
absent value. -/
def archs : List String :=
 [ "i386", "i486", "i586", "i686", "i786", "i886", "i986", "amd64", "x86_64", "x86_64h",
   "powerpc", "powerpcspe", "ppc", "ppc32", "powerpcle", "ppcle", "ppc32le", "powerpc64",
   "ppu", "ppc64", "powerpc64le", "ppc64le", "xscale", "xscaleeb", "aarch64", "aarch64_be",
   "aarch64_32", "arc", "arm64", "arm64_32", "arm64e", "arm", "armeb", "thumb", "thumbeb",
   "avr", "m68k", "msp430", "mips", "mipseb", "mipsallegrex", "mipsisa32r6", "mipsr6",
   "mipsel", "mipsallegrexel", "mipsisa32r6el", "mipsr6el,", "mips64", "mips64eb", "mipsn32",
   "mipsisa64r6,", "mips64r6", "mipsn32r6", "mips64el", "mipsn32el", "mipsisa64r6el",
   "mips64r6el,", "mipsn32r6el", "r600", "amdgcn", "riscv32", "riscv64", "hexagon", "s390x",
   "systemz", "sparc", "sparcel", "sparcv9", "sparc64", "tce", "tcele", "xcore", "nvptx",
   "nvptx64", "le32", "le64", "amdil", "amdil64", "hsail", "hsail64", "spir", "spir64",
   "spirv32", "spirv32v1.0", "spirv32v1.1", "spirv32v1.2,", "spirv32v1.3", "spirv32v1.4",
   "spirv32v1.5", "spirv64", "spirv64v1.0", "spirv64v1.1", "spirv64v1.2,", "spirv64v1.3",
   "spirv64v1.4", "spirv64v1.5", "lanai", "renderscript32", "renderscript64", "shave", "ve",
   "wasm32", "wasm64", "csky", "loongarch32", "loongarch64", "dxil", ""]

/-- `ClangVendor` member values in definition order. -/
def vendors : List String :=
 [ "apple", "pc", "scei", "sie", "fsl", "ibm", "img", "mti", "nvidia", "csr", "myriad", "amd",
   "mesa", "suse", "oe", ""]

/-- `ClangOS` member values in definition order. -/
def oses : List String :=
 [ "ananas", "cloudabi", "darwin", "dragonfly", "freebsd", "fuchsia", "ios", "kfreebsd",
   "linux", "lv2", "macos", "netbsd", "openbsd", "solaris", "win32", "windows", "zos", "haiku",
   "minix", "rtems", "nacl", "aix", "cuda", "nvcl", "amdhsa", "ps4", "ps5", "elfiamcu", "tvos",
   "watchos", "driverkit", "mesa3d", "contiki", "amdpal", "hermit", "hurd", "wasi",
   "emscripten", "shadermodel", ""]

/-- `ClangEnvironment` member values in definition order. -/
def envs : List String :=
 [ "eabihf", "eabi", "gnuabin32", "gnuabi64", "gnueabihf", "gnueabi", "gnux32", "gnu_ilp32",
   "code16", "gnu", "android", "musleabihf", "musleabi", "muslx32", "musl", "msvc", "itanium",
   "cygnus", "coreclr", "simulator", "macabi", "pixel", "vertex", "geometry", "hull", "domain",
   "compute", "library", "raygeneration", "intersection", "anyhit", "closesthit", "miss",
   "callable", "mesh", "amplification", ""]

/-! ## The crash-signature analyzer (`analyze_results.py`)
`main` reads `results.txt`, pairs its lines with `chunked(..., 2)`, parses
each record's second line with `ast.literal_eval`, and scans the recovered
bytes with `re.findall` for
`rb"\#[0-9]+\s+0x[0-9a-f]+\s+([a-zA-Z_0-9:~]+)"`, then groups records into
a dict keyed by the tuple of captured symbols.
The regex is reified as an explicit maximal-munch scanner (`matchFrame` /
`findAllFrames`): between every two adjacent sub-patterns of the regex the
character classes are disjoint (digit/space, space/`0`, hex/space,
space/symbol), so the backtracking regex engine and the maximal-munch
scanner accept exactly the same matches, scanning left to right without
overlap and advancing one byte after a failed position — this was also
validated differentially against `re.findall`.  Bytes are `List Nat`.
`findAllFrames` runs a structurally recursive scanner with a fuel argument
(one unit per scan step, `l.length` is always enough) so that it computes
by kernel reduction.
The reader's `literal_eval` on a bytes literal is embedded as
`parseBytesLit` (quote handling, `\\`, `\'`, `\"`, `\n`, `\t`, `\r`,
`\a`, `\b`, `\f`, `\v`, `\xHH`, octal escapes with CPython's mod-256
wrap, unknown escapes kept verbatim, non-ASCII rejected); the writer's
`print(err)` — Python's `repr` of a bytes object — is embedded as
`bytesRepr` (quote selection: `"` exactly when the bytes contain `'` but
no `"`; per-byte escapes).  Both were validated differentially against
CPython.  The dict is an insertion-ordered association list: `dictInsert`
overwrites in place like `stack_traces[strace] = ...`.
-/
def isDigitB (b : Nat) : Bool := 48 ≤ b && b ≤ 57

def isHexB (b : Nat) : Bool := isDigitB b || (97 ≤ b && b ≤ 102)

def isSpaceB (b : Nat) : Bool := b == 32 || b == 9 || b == 10 || b == 11 || b == 12 || b == 13

def isSymB (b : Nat) : Bool :=
  (97 ≤ b && b ≤ 122) || (65 ≤ b && b ≤ 90) || isDigitB b || b == 95 || b == 58 || b == 126

/-- One greedy `X+` sub-pattern of the regex: the maximal nonempty prefix of
bytes satisfying `p`, with the remaining input. -/
def token (p : Nat → Bool) (s : List Nat) : Option (List Nat × List Nat) :=
  if (s.takeWhile p).isEmpty then none else some (s.takeWhile p, s.dropWhile p)

/-- One literal byte of the regex pattern. -/
def lit (b : Nat) : List Nat → Option (List Nat)
  | c :: s => if c = b then some s else none
  | [] => none

/-- An anchored match of `rb"\#[0-9]+\s+0x[0-9a-f]+\s+([a-zA-Z_0-9:~]+)"`
at the start of the input: returns the captured symbol and the input left
after the match. -/
def matchFrame (l : List Nat) : Option (List Nat × List Nat) :=
  (lit 35 l).bind fun s1 =>
  (token isDigitB s1).bind fun d =>
  (token isSpaceB d.2).bind fun w1 =>
  (lit 48 w1.2).bind fun s2 =>
  (lit 120 s2).bind fun s3 =>
  (token isHexB s3).bind fun hx =>
  (token isSpaceB hx.2).bind fun w2 =>
  (token isSymB w2.2).bind fun sym =>
  some (sym.1, sym.2)

/-- `re.findall` scanning loop: try an anchored match at each position,
collect captured symbols of non-overlapping matches left to right, advance
one byte after a failed position.  `fuel` bounds the number of scan steps
(the input length always suffices); it exists only to make the recursion
structural so the function computes by kernel reduction. -/
def findAllFramesFuel : Nat → List Nat → List (List Nat)
  | 0, _ => []
  | _, [] => []
  | fuel + 1, b :: s =>
    match matchFrame (b :: s) with
    | some (sym, rest) => sym :: findAllFramesFuel fuel rest
    | none => findAllFramesFuel fuel s

/-- `re.findall(STACK_TRACE_RE, diag)`: all captured symbols in order. -/
def findAllFrames (l : List Nat) : List (List Nat) := findAllFramesFuel l.length l

/-- The Signature of a diagnostic: the tuple
`(*findall(STACK_TRACE_RE, literal_eval(output_string)),)` of captured
stack-frame symbols (analyze_results.py line 22). -/
def extractSignature (diag : List Nat) : List (List Nat) := findAllFrames diag

/-- Modelled from the spec: a line wholly of the shape "frame-number,
hexadecimal address, symbol" and the symbol it carries.  Used to compare the
code's whole-text scan against the spec's line-by-line description. -/
def lineShaped (l : List Nat) : Option (List Nat) :=
  match matchFrame l with
  | some (sym, []) => some sym
  | _ => none

/-- Modelled from the spec: the lines of a diagnostic (split at newline
bytes), for the line-by-line reading of signature extraction. -/
def splitLinesB (s : List Nat) : List (List Nat) := s.splitOn 10

/-- Modelled from the spec: the symbol of the first frame shape occurring
within a single line, if any. -/
def lineFirstFrame (l : List Nat) : Option (List Nat) := (findAllFrames l).head?

/-- Modelled from the spec: the Signature as §4.5 words it — scan the text
line-by-line and collect the symbol from each line matching the frame
shape. -/
def specSignature (s : List Nat) : List (List Nat) :=
  (splitLinesB s).filterMap lineFirstFrame

/-- Joins lines with newline bytes (inverse view of line splitting), used to
state the per-line extraction theorem. -/
def joinLines : List (List Nat) → List Nat
  | [] => []
  | [l] => l
  | l :: l2 :: rest => l ++ 10 :: joinLines (l2 :: rest)

/-- The byte string of an ASCII string literal, for readable test inputs. -/
def strBytes (s : String) : List Nat := s.data.map Char.toNat

/-- Python-dict assignment `d[k] = v` on an insertion-ordered association
list: overwrite in place if the key exists, else append. -/
def dictInsert {K V : Type} [DecidableEq K] (k : K) (v : V) : List (K × V) → List (K × V)
  | [] => [(k, v)]
  | (k', v') :: d => if k' = k then (k, v) :: d else (k', v') :: dictInsert k v d

/-- Python-dict lookup `d[k]` on an insertion-ordered association list. -/
def dictFind {K V : Type} [DecidableEq K] (k : K) : List (K × V) → Option V
  | [] => none
  | (k', v') :: d => if k' = k then some v' else dictFind k d

/-- The analyzer's grouping loop over already-parsed records
`(specifier line, diagnostic bytes)`:
`stack_traces[strace] = (result, literal_eval(output_string))`
(analyze_results.py lines 21-25). -/
def analyzeRecords (recs : List (List Nat × List Nat)) :
    List (List (List Nat) × (List Nat × List Nat)) :=
  recs.foldl (fun d r => dictInsert (extractSignature r.2) r d) []

/-- Value of a hexadecimal digit character, as accepted in `\xHH`
escapes. -/
def hexValB (c : Nat) : Option Nat :=
  if 48 ≤ c ∧ c ≤ 57 then some (c - 48)
  else if 97 ≤ c ∧ c ≤ 102 then some (c - 87)
  else if 65 ≤ c ∧ c ≤ 70 then some (c - 55)
  else none

/-- Body of `ast.literal_eval` on a bytes literal, after the opening
`b` and quote `q`: decode escapes byte by byte until the closing quote,
which must end the line.  `none` models the `ValueError`/`SyntaxError` the
reader would raise. -/
def parseBody (q : Nat) : List Nat → Option (List Nat)
  | [] => none
  | c :: rest =>
    if c = q then
      match rest with
      | [] => some []
      | _ :: _ => none
    else if c = 92 then
      match rest with
      | [] => none
      | e :: r2 =>
        if e = 92 then (parseBody q r2).map (fun t => 92 :: t)
        else if e = 39 then (parseBody q r2).map (fun t => 39 :: t)
        else if e = 34 then (parseBody q r2).map (fun t => 34 :: t)
        else if e = 110 then (parseBody q r2).map (fun t => 10 :: t)
        else if e = 116 then (parseBody q r2).map (fun t => 9 :: t)
        else if e = 114 then (parseBody q r2).map (fun t => 13 :: t)
        else if e = 97 then (parseBody q r2).map (fun t => 7 :: t)
        else if e = 98 then (parseBody q r2).map (fun t => 8 :: t)
        else if e = 102 then (parseBody q r2).map (fun t => 12 :: t)
        else if e = 118 then (parseBody q r2).map (fun t => 11 :: t)
        else if e = 120 then
          match r2 with
          | h1 :: h2 :: r3 =>
            match hexValB h1, hexValB h2 with
            | some x1, some x2 => (parseBody q r3).map (fun t => (16 * x1 + x2) :: t)
            | _, _ => none
          | _ => none
        else if 48 ≤ e ∧ e ≤ 55 then
          match r2 with
          | [] => none
          | d2 :: r3 =>
            if 48 ≤ d2 ∧ d2 ≤ 55 then
              match r3 with
              | [] => none
              | d3 :: r4 =>
                if 48 ≤ d3 ∧ d3 ≤ 55 then
                  (parseBody q r4).map
                    (fun t => ((64 * (e - 48) + 8 * (d2 - 48) + (d3 - 48)) % 256) :: t)
                else (parseBody q (d3 :: r4)).map (fun t => (8 * (e - 48) + (d2 - 48)) :: t)
            else (parseBody q (d2 :: r3)).map (fun t => (e - 48) :: t)
        else if e = 10 ∨ e = 13 then none
        else if e < 128 then (parseBody q r2).map (fun t => 92 :: e :: t)
        else none
    else if c = 10 ∨ c = 13 then none
    else if c < 128 then (parseBody q rest).map (fun t => c :: t)
    else none
termination_by s => s.length
decreasing_by all_goals (simp_wf <;> omega)

/-- `ast.literal_eval` restricted to one-line bytes literals `b'...'` /
`b"..."` — the forms the log writer produces. -/
def parseBytesLit (line : List Nat) : Option (List Nat) :=
  match line with
  | 98 :: q :: rest => if q = 39 ∨ q = 34 then parseBody q rest else none
  | _ => none

/-- Lowercase hexadecimal digit character of a nibble, as `repr` emits. -/
def hexDigitB (n : Nat) : Nat := if n < 10 then 48 + n else 87 + n

/-- Python `bytes.__repr__` escaping of one byte, given the chosen quote
`q`: backslash and the quote are escaped, `\t`, `\n`, `\r` are named,
printable ASCII is verbatim, everything else becomes `\xHH`. -/
def escByte (q b : Nat) : List Nat :=
  if b = 92 then [92, 92]
  else if b = q then [92, q]
  else if b = 9 then [92, 116]
  else if b = 10 then [92, 110]
  else if b = 13 then [92, 114]
  else if 32 ≤ b ∧ b < 127 then [b]
  else [92, 120, hexDigitB (b / 16), hexDigitB (b % 16)]

/-- Concatenated per-byte escapes of a byte string. -/
def escBytes (q : Nat) : List Nat → List Nat
  | [] => []
  | b :: bs => escByte q b ++ escBytes q bs

/-- Python `repr` quote selection for bytes: `"` exactly when the bytes
contain `'` but no `"`, else `'`. -/
def reprQuote (bs : List Nat) : Nat := if 39 ∈ bs ∧ 34 ∉ bs then 34 else 39

/-- The one-line log form of a diagnostic: Python's `repr` of the bytes, as
written by `print(err)` in `check_triple` (try_triples.py line 347). -/
def bytesRepr (bs : List Nat) : List Nat :=
  98 :: reprQuote bs :: (escBytes (reprQuote bs) bs ++ [reprQuote bs])

/-- `chunked(results.splitlines(), 2)` together with the two-element unpack
`for result, output_string in ...`: `none` models the `ValueError` raised on
a trailing one-line chunk. -/
def chunkPairs {α : Type} : List α → Option (List (α × α))
  | [] => some []
  | [_] => none
  | a :: b :: rest => (chunkPairs rest).map (fun l => (a, b) :: l)

/-- The analyzer's main loop over chunked records: parse each record's
second line as a bytes literal and insert it into the signature dict;
`none` models an exception escaping the loop. -/
def analyzePairs : List (List Nat × List Nat) →
    List (List (List Nat) × (List Nat × List Nat)) →
    Option (List (List (List Nat) × (List Nat × List Nat)))
  | [], d => some d
  | pr :: rest, d =>
    match parseBytesLit pr.2 with
    | none => none
    | some diag => analyzePairs rest (dictInsert (extractSignature diag) (pr.1, diag) d)

/-- The whole analyzer pass over the raw log lines (analyze_results.py
`main`): chunk into pairs, parse, group by extracted signature. -/
def analyzeLog (lines : List (List Nat)) :
    Option (List (List (List Nat) × (List Nat × List Nat))) :=
  match chunkPairs lines with
  | none => none
  | some pairs => analyzePairs pairs []

/-! ## Theorems -/

/-- C3 (counterexample): the sentinel can appear in the concatenation of the
two streams without appearing in either stream alone.  With
`out = b"PLEA"`, `err = b"SE"` and exit code 0, `b"PLEASE"` is a substring of
`out + err`, yet `check_valid_triple` classifies the probe as Valid
(`(True, b"")`), not Crashed — refuting the claim that the classification
tests the concatenation. -/
theorem C3_sentinel_concat_counterexample :
    SENTINEL <:+: ([80, 76, 69, 65] ++ [83, 69] : List Nat) ∧
      check_valid_triple 0 [80, 76, 69, 65] [83, 69] = (true, []) := by
  constructor
  · exact ⟨[], [], rfl⟩
  · rfl

/-- C3 (amended): probe classification is a pure function of the exit code and
the two captured streams taken separately: if the sentinel occurs in `out` or
occurs in `err` the result is Crashed with diagnostic `out ++ err`; otherwise
exit code 0 yields Valid and a non-zero exit yields Invalid, with an empty
diagnostic in both cases.  (A sentinel occurrence that only straddles the
boundary between the two streams is not detected.) -/
theorem C3_classification (rc : Int) (out err : List Nat) :
    (SENTINEL <:+: out ∨ SENTINEL <:+: err →
      check_valid_triple rc out err = (false, out ++ err)) ∧
    (¬ (SENTINEL <:+: out ∨ SENTINEL <:+: err) → rc = 0 →
      check_valid_triple rc out err = (true, [])) ∧
    (¬ (SENTINEL <:+: out ∨ SENTINEL <:+: err) → rc ≠ 0 →
      check_valid_triple rc out err = (false, [])) := by
  refine ⟨fun h => ?_, fun h h0 => ?_, fun h h0 => ?_⟩
  · simp [check_valid_triple, h]
  · simp [check_valid_triple, h, h0]
  · simp [check_valid_triple, h, h0]

/-- C3 (witness): the three branches of `C3_classification` at concrete
inputs: a crashing stream, a clean success, and a clean rejection. -/
theorem C3_classification_witness :
    check_valid_triple 1 [80, 76, 69, 65, 83, 69] [] = (false, [80, 76, 69, 65, 83, 69] ++ []) ∧
      check_valid_triple 0 [] [] = (true, []) ∧
      check_valid_triple 7 [] [] = (false, []) :=
  ⟨(C3_classification 1 [80, 76, 69, 65, 83, 69] []).1 (Or.inl ⟨[], [], rfl⟩),
   (C3_classification 0 [] []).2.1 (by decide) rfl,
   (C3_classification 7 [] []).2.2 (by decide) (by decide)⟩

/-- C2 (code bug): the run creates `/dev/shm/test/<uuid>.c` but unlinks
`tempfile.name`, which is only the final component `<uuid>.c`; `os.unlink`
resolves it against the current working directory, so (for any run whose
working directory is not `/dev/shm/test`, here `/home/user`) the removal
targets a different path than the one that was created.  Concretely with
`uuid = "u"`: the basename is `u.c` and the resolved unlink target
`/home/user/u.c` differs from the created `/dev/shm/test/u.c`. -/
theorem C2_unlink_targets_wrong_path :
    pathName (tempfilePath [117]) = [117, 46, 99] ∧
      unlinkedPath [47, 104, 111, 109, 101, 47, 117, 115, 101, 114] [117] ≠
        tempfilePath [117] := by
  constructor
  · rfl
  · decide

/-- The scheduler completes every submitted specifier exactly once: whenever
the final drain cannot hand `asyncio.wait` an empty set
(`pending = [] → tasks ≠ []`), the run returns, and its completion list is
the prior completions followed by every outstanding and every pending
specifier, each exactly once. -/
theorem runScheduler_spec (K : Nat) (oracle : Nat → Nat) (hK : 1 ≤ K) :
    ∀ t pending tasks completed maxOut, (pending = [] → tasks ≠ []) →
    ∃ M, runScheduler K oracle t pending tasks completed maxOut
        = some (completed ++ (tasks ++ pending), M) := by
  intro t pending tasks completed maxOut
  induction t, pending, tasks, completed, maxOut using runScheduler.induct K oracle with
  | case1 t tasks completed maxOut hempty =>
    intro hinv
    exact absurd (List.isEmpty_iff.mp hempty) (hinv rfl)
  | case2 t tasks completed maxOut hne =>
    intro _
    refine ⟨maxOut, ?_⟩
    rw [runScheduler]
    simp [hne]
  | case3 t tasks completed maxOut p ps h1 h2 =>
    intro _
    omega
  | case4 t tasks completed maxOut p ps h1 h2 k ih =>
    intro _
    obtain ⟨M, hM⟩ := ih (by simp)
    refine ⟨M, ?_⟩
    rw [runScheduler]
    rw [if_pos h1, if_neg h2]
    rw [hM]
    rw [List.append_assoc, ← List.append_assoc (List.take _ tasks), List.take_append_drop]
  | case5 t tasks completed maxOut p ps h1 ih =>
    intro _
    obtain ⟨M, hM⟩ := ih (by simp)
    refine ⟨M, ?_⟩
    rw [runScheduler]
    rw [if_neg h1]
    rw [hM]
    simp

/-- The peak outstanding-probe count of a completed run never grows beyond
the cap: a probe is launched only when the outstanding count is strictly
below `K`. -/
theorem runScheduler_cap (K : Nat) (oracle : Nat → Nat) :
    ∀ t pending tasks completed maxOut res M,
      runScheduler K oracle t pending tasks completed maxOut = some (res, M) →
      tasks.length ≤ K → maxOut ≤ K → M ≤ K := by
  intro t pending tasks completed maxOut
  induction t, pending, tasks, completed, maxOut using runScheduler.induct K oracle with
  | case1 t tasks completed maxOut hempty =>
    intro res M h hlen hmax
    rw [runScheduler] at h
    simp [hempty] at h
  | case2 t tasks completed maxOut hne =>
    intro res M h hlen hmax
    rw [runScheduler] at h
    simp only [hne, if_false, if_neg, Option.some.injEq, Prod.mk.injEq] at h
    obtain ⟨-, h2⟩ := h
    omega
  | case3 t tasks completed maxOut p ps h1 h2 =>
    intro res M h hlen hmax
    rw [runScheduler, if_pos h1, if_pos h2] at h
    exact absurd h (by simp)
  | case4 t tasks completed maxOut p ps h1 h2 k ih =>
    intro res M h hlen hmax
    rw [runScheduler, if_pos h1, if_neg h2] at h
    refine ih res M h ?_ hmax
    simp only [List.length_drop]
    omega
  | case5 t tasks completed maxOut p ps h1 ih =>
    intro res M h hlen hmax
    rw [runScheduler, if_neg h1] at h
    refine ih res M h ?_ ?_
    · simp only [List.length_append, List.length_cons, List.length_nil]
      omega
    · omega

/-- C4 (counterexample): with zero submitted specifiers the task loop never
runs, so the final `await wait(tasks)` receives an empty set and
`asyncio.wait` raises `ValueError` (modelled as `none`) — the scheduler does
not declare the run complete, refuting the claim's "including N = 0". -/
theorem C4_zero_specifiers_counterexample :
    runScheduler 32 (fun _ => 1) 0 [] [] [] 0 = none := by
  rw [runScheduler]
  simp

/-- C4 (amended): for every finite input of `N ≥ 1` specifiers (`l ≠ []`) and
every completion schedule, the scheduler terminates having produced exactly
one ProbeResult observation per submitted specifier — none dropped, none
duplicated (the completion list is exactly the submitted list) — and it
returns only after the final wait has drained every outstanding probe. -/
theorem C4_scheduler_completes_all (K : Nat) (oracle : Nat → Nat) (l : List Nat)
    (hK : 1 ≤ K) (hl : l ≠ []) :
    ∃ M, runScheduler K oracle 0 l [] [] 0 = some (l, M) := by
  obtain ⟨M, h⟩ := runScheduler_spec K oracle hK 0 l [] [] 0 (fun he => absurd he hl)
  exact ⟨M, by simpa using h⟩

/-- C4 (witness): a three-specifier run under cap 2 completes rather than
erroring. -/
theorem C4_scheduler_completes_all_witness :
    runScheduler 2 (fun _ => 1) 0 [5, 6, 7] [] [] 0 ≠ none := by
  obtain ⟨M, h⟩ := C4_scheduler_completes_all 2 (fun _ => 1) [5, 6, 7] (by omega) (by simp)
  simp [h]

/-- C5: the number of outstanding probes never exceeds the configured cap `K`
(`TASK_COUNT = 32` in the code): the count grows only at a launch, each
launch happens only once the count has dropped strictly below `K`, and hence
the run's reported peak `M` of the outstanding count is at most `K`. -/
theorem C5_cap_never_exceeded (K : Nat) (oracle : Nat → Nat) (l res : List Nat) (M : Nat)
    (h : runScheduler K oracle 0 l [] [] 0 = some (res, M)) : M ≤ K :=
  runScheduler_cap K oracle 0 l [] [] 0 res M h (by simp) (Nat.zero_le K)

/-- C5 (witness): a three-specifier run under the code's cap 32 peaks at
three outstanding probes, within the cap. -/
theorem C5_cap_never_exceeded_witness :
    runScheduler 32 (fun _ => 1) 0 [0, 1, 2] [] [] 0 = some ([0, 1, 2], 3) ∧ (3 : Nat) ≤ 32 := by
  have h : runScheduler 32 (fun _ => 1) 0 [0, 1, 2] [] [] 0 = some ([0, 1, 2], 3) := by
    rw [runScheduler]
    norm_num
    rw [runScheduler]
    norm_num
    rw [runScheduler]
    norm_num
    rw [runScheduler]
    norm_num
  exact ⟨h, C5_cap_never_exceeded 32 (fun _ => 1) [0, 1, 2] [0, 1, 2] 3 h⟩

theorem data_ne_nil_iff (s : String) : s.data ≠ [] ↔ s ≠ "" := by
  constructor
  · intro h hs
    exact h (by simp [hs])
  · intro h hd
    exact h (String.ext hd)

theorem addPart_data (t s : String) :
    (if s ≠ "" then t ++ ((if t ≠ "" then "-" else "") ++ s) else t).data
      = addPart t.data s.data := by
  by_cases hs : s = ""
  · simp [hs, addPart]
  · by_cases ht : t = ""
    · simp [hs, ht, addPart, (data_ne_nil_iff s).mpr hs]
    · simp [hs, ht, addPart, (data_ne_nil_iff s).mpr hs, (data_ne_nil_iff t).mpr ht]

theorem generateTriple_data (a v o e : String) :
    (generateTriple a v o e).data
      = addPart (addPart (addPart (addPart [] a.data) v.data) o.data) e.data := by
  have h0 : ∀ s : String, (if s ≠ "" then "" ++ s else "").data = addPart [] s.data := by
    intro s
    by_cases hs : s = ""
    · simp [hs, addPart]
    · simp [hs, addPart, (data_ne_nil_iff s).mpr hs]
  simp only [generateTriple]
  rw [addPart_data, addPart_data, addPart_data, h0]

theorem joinDash_append_single (ps : List (List Char)) (p : List Char) (hps : ps ≠ []) :
    joinDash (ps ++ [p]) = joinDash ps ++ '-' :: p := by
  induction ps with
  | nil => exact absurd rfl hps
  | cons q ps ih =>
    cases ps with
    | nil => rfl
    | cons r ps' =>
      show joinDash (q :: (r :: ps' ++ [p])) = (q ++ '-' :: joinDash (r :: ps')) ++ '-' :: p
      simp only [joinDash]
      show q ++ '-' :: joinDash ((r :: ps') ++ [p]) = q ++ '-' :: joinDash (r :: ps') ++ '-' :: p
      rw [ih (by simp)]
      simp

theorem joinDash_ne_nil (ps : List (List Char)) (hps : ps ≠ [])
    (hne : ∀ q ∈ ps, q ≠ []) : joinDash ps ≠ [] := by
  cases ps with
  | nil => exact absurd rfl hps
  | cons q ps =>
    cases ps with
    | nil => exact hne q (by simp)
    | cons r ps' =>
      simp only [joinDash]
      simp [hne q (by simp)]

theorem addPart_joinDash (ps : List (List Char)) (p : List Char)
    (hne : ∀ q ∈ ps, q ≠ []) :
    addPart (joinDash ps) p = joinDash (ps ++ if p = [] then [] else [p]) := by
  by_cases hp : p = []
  · simp [hp, addPart]
  · by_cases hps : ps = []
    · simp [hp, hps, addPart, joinDash]
    · rw [addPart, if_neg hp, if_neg (joinDash_ne_nil ps hps hne), if_neg hp,
        joinDash_append_single ps p hps]

theorem joinDash_head (ps : List (List Char)) (hne : ∀ q ∈ ps, q ≠ [])
    (hdf : ∀ q ∈ ps, '-' ∉ q) : (joinDash ps).head? ≠ some '-' := by
  cases ps with
  | nil => simp [joinDash]
  | cons q ps =>
    have hq : q ≠ [] := hne q (by simp)
    have hqd : '-' ∉ q := hdf q (by simp)
    cases hql : q with
    | nil => exact absurd hql hq
    | cons c q' =>
      subst hql
      have hc : c ≠ '-' := fun hc => hqd (by simp [hc])
      cases ps with
      | nil =>
        simp only [joinDash]
        simp [hc]
      | cons r ps' =>
        simp only [joinDash]
        simp [hc]

theorem joinDash_getLast (ps : List (List Char)) (hne : ∀ q ∈ ps, q ≠ [])
    (hdf : ∀ q ∈ ps, '-' ∉ q) : (joinDash ps).getLast? ≠ some '-' := by
  induction ps with
  | nil => simp [joinDash]
  | cons q ps ih =>
    cases ps with
    | nil =>
      simp only [joinDash]
      intro h
      obtain ⟨hx, heq⟩ := List.mem_getLast?_eq_getLast (show '-' ∈ q.getLast? from h)
      exact hdf q (by simp) (heq ▸ List.getLast_mem hx)
    | cons r ps' =>
      simp only [joinDash]; rw [List.getLast?_append_cons]
      have hrest : joinDash (r :: ps') ≠ [] :=
        joinDash_ne_nil _ (by simp) (fun x hx => hne x (List.mem_cons_of_mem _ hx))
      obtain ⟨c, rest, hcr⟩ := List.exists_cons_of_ne_nil hrest
      rw [hcr, List.getLast?_cons_cons, ← hcr]
      exact ih (fun x hx => hne x (List.mem_cons_of_mem _ hx))
        (fun x hx => hdf x (List.mem_cons_of_mem _ hx))

theorem prefix_head (c : Char) (l : List Char) (h : ['-', '-'] <+: c :: l) :
    c = '-' ∧ l.head? = some '-' := by
  rw [List.cons_prefix_cons] at h
  obtain ⟨hc, h2⟩ := h
  refine ⟨hc.symm, ?_⟩
  cases l with
  | nil => exact absurd h2 (by simp)
  | cons d l' =>
    rw [List.cons_prefix_cons] at h2
    simp [← h2.1]

theorem noDouble_append (p rest : List Char) (hp : '-' ∉ p)
    (hhead : rest.head? ≠ some '-') (hrest : ¬ ['-', '-'] <:+: rest) :
    ¬ ['-', '-'] <:+: (p ++ '-' :: rest) := by
  induction p with
  | nil =>
    intro h
    rw [List.nil_append, List.infix_cons_iff] at h
    cases h with
    | inl h => exact hhead (prefix_head _ _ h).2
    | inr h => exact hrest h
  | cons c p' ih =>
    intro h
    rw [List.cons_append, List.infix_cons_iff] at h
    cases h with
    | inl h => exact hp (by simp [(prefix_head _ _ h).1])
    | inr h => exact ih (fun hx => hp (List.mem_cons_of_mem _ hx)) h

theorem joinDash_noDouble (ps : List (List Char)) (hne : ∀ q ∈ ps, q ≠ [])
    (hdf : ∀ q ∈ ps, '-' ∉ q) : ¬ ['-', '-'] <:+: joinDash ps := by
  induction ps with
  | nil => simp [joinDash]
  | cons q ps ih =>
    cases ps with
    | nil =>
      simp only [joinDash]
      intro h
      have := List.IsInfix.subset h
      exact hdf q (by simp) (this (by simp))
    | cons r ps' =>
      simp only [joinDash]
      exact noDouble_append q _ (hdf q (by simp))
        (joinDash_head _ (fun x hx => hne x (List.mem_cons_of_mem _ hx))
          (fun x hx => hdf x (List.mem_cons_of_mem _ hx)))
        (ih (fun x hx => hne x (List.mem_cons_of_mem _ hx))
          (fun x hx => hdf x (List.mem_cons_of_mem _ hx)))

theorem addPart_eq_nil (acc p : List Char) :
    addPart acc p = [] ↔ acc = [] ∧ p = [] := by
  by_cases hp : p = []
  · simp [addPart, hp]
  · by_cases hacc : acc = [] <;> simp [addPart, hp, hacc]

theorem mkTriple_eq_joinDash (a v o e : List Char) :
    addPart (addPart (addPart (addPart [] a) v) o) e
      = joinDash ([a, v, o, e].filter (fun p => p ≠ [])) := by
  by_cases ha : a = [] <;> by_cases hv : v = [] <;> by_cases ho : o = [] <;> by_cases he : e = [] <;>
    simp [addPart, ha, hv, ho, he, joinDash]

theorem mkTriple_eq_nil (a v o e : List Char) :
    addPart (addPart (addPart (addPart [] a) v) o) e = [] ↔
      (a = [] ∧ v = [] ∧ o = [] ∧ e = []) := by
  by_cases ha : a = [] <;> by_cases hv : v = [] <;> by_cases ho : o = [] <;> by_cases he : e = [] <;>
    simp [addPart, ha, hv, ho, he]

theorem archs_dashfree : ∀ s ∈ archs, '-' ∉ s.data := by decide

theorem vendors_dashfree : ∀ s ∈ vendors, '-' ∉ s.data := by decide

theorem oses_dashfree : ∀ s ∈ oses, '-' ∉ s.data := by decide

theorem envs_dashfree : ∀ s ∈ envs, '-' ∉ s.data := by decide

theorem data_eq_nil_iff (s : String) : s.data = [] ↔ s = "" :=
  ⟨fun h => String.ext (by simp [h]), fun h => by simp [h]⟩

/-- C6: for every combination of the four axis values, the assembled
Specifier concatenates the non-absent values in fixed order (architecture,
vendor, OS, environment) joined by a single `-` separator (`joinDash` of the
non-empty parts), contains no leading, trailing, or doubled separator, and is
the empty string exactly when all four axes are absent. -/
theorem C6_triple_assembly :
    ∀ a ∈ archs, ∀ v ∈ vendors, ∀ o ∈ oses, ∀ e ∈ envs,
      (generateTriple a v o e).data
          = joinDash ([a.data, v.data, o.data, e.data].filter (fun p => p ≠ [])) ∧
        (generateTriple a v o e).data.head? ≠ some '-' ∧
        (generateTriple a v o e).data.getLast? ≠ some '-' ∧
        ¬ ['-', '-'] <:+: (generateTriple a v o e).data ∧
        (generateTriple a v o e = "" ↔ (a = "" ∧ v = "" ∧ o = "" ∧ e = "")) := by
  intro a ha v hv o ho e he
  have hd := generateTriple_data a v o e
  have hj := mkTriple_eq_joinDash a.data v.data o.data e.data
  have hne : ∀ q ∈ [a.data, v.data, o.data, e.data].filter (fun p => p ≠ []), q ≠ [] := by
    intro q hq
    simpa using List.of_mem_filter hq
  have hdf : ∀ q ∈ [a.data, v.data, o.data, e.data].filter (fun p => p ≠ []), '-' ∉ q := by
    intro q hq
    have hq' := List.mem_of_mem_filter hq
    simp only [List.mem_cons, List.not_mem_nil, or_false] at hq'
    rcases hq' with rfl | rfl | rfl | rfl
    · exact archs_dashfree a ha
    · exact vendors_dashfree v hv
    · exact oses_dashfree o ho
    · exact envs_dashfree e he
  refine ⟨by rw [hd, hj], ?_, ?_, ?_, ?_⟩
  · rw [hd, hj]
    exact joinDash_head _ hne hdf
  · rw [hd, hj]
    exact joinDash_getLast _ hne hdf
  · rw [hd, hj]
    exact joinDash_noDouble _ hne hdf
  · rw [← data_eq_nil_iff, hd, mkTriple_eq_nil,
      data_eq_nil_iff, data_eq_nil_iff, data_eq_nil_iff, data_eq_nil_iff]

/-- C6 (witness): the classic full triple, assembled and separator-clean. -/
theorem C6_triple_assembly_witness :
    generateTriple "i386" "pc" "linux" "gnu" = "i386-pc-linux-gnu" ∧
      ¬ ['-', '-'] <:+: (generateTriple "i386" "pc" "linux" "gnu").data := by
  refine ⟨by decide, (C6_triple_assembly "i386" (by decide) "pc" (by decide)
    "linux" (by decide) "gnu" (by decide)).2.2.2.1⟩

theorem dropWhile_length_le (p : Nat → Bool) : ∀ s : List Nat, (s.dropWhile p).length ≤ s.length := by
  intro s
  induction s with
  | nil => simp
  | cons c s ih =>
    rw [List.dropWhile]
    cases hp : p c
    · simp
    · simp only [List.length_cons]
      omega

theorem token_length (p : Nat → Bool) (s : List Nat) (x : List Nat × List Nat)
    (h : token p s = some x) : x.2.length ≤ s.length := by
  unfold token at h
  by_cases he : (s.takeWhile p).isEmpty
  · simp [he] at h
  · simp only [he, if_false, Option.some.injEq, Bool.false_eq_true] at h
    rw [← h]
    exact dropWhile_length_le p s

theorem lit_length (b : Nat) (s rest : List Nat) (h : lit b s = some rest) :
    rest.length < s.length := by
  cases s with
  | nil => simp [lit] at h
  | cons c s' =>
    have hd : lit b (c :: s') = if c = b then some s' else none := rfl
    rw [hd] at h
    by_cases hc : c = b
    · rw [if_pos hc] at h
      injection h with h
      rw [← h]
      simp
    · rw [if_neg hc] at h
      exact absurd h (by simp)

theorem matchFrame_length (l : List Nat) (x : List Nat × List Nat)
    (h : matchFrame l = some x) : x.2.length < l.length := by
  unfold matchFrame at h
  simp only [Option.bind_eq_some] at h
  obtain ⟨s1, h1, d, h2, w1, h3, s2, h4, s3, h5, hx, h6, w2, h7, sym, h8, h9⟩ := h
  have e9 : x.2 = sym.2 := by
    have := (Option.some.injEq _ _).mp h9
    rw [← this]
  have l1 := lit_length _ _ _ h1
  have l2 := token_length _ _ _ h2
  have l3 := token_length _ _ _ h3
  have l4 := lit_length _ _ _ h4
  have l5 := lit_length _ _ _ h5
  have l6 := token_length _ _ _ h6
  have l7 := token_length _ _ _ h7
  have l8 := token_length _ _ _ h8
  rw [e9]
  omega

theorem findAllFramesFuel_nil (fuel : Nat) : findAllFramesFuel fuel [] = [] := by
  cases fuel <;> rfl

theorem findAllFrames_nil : findAllFrames [] = [] := rfl

theorem findAllFramesFuel_adequate (fuel : Nat) :
    ∀ l : List Nat, l.length ≤ fuel → findAllFramesFuel fuel l = findAllFrames l := by
  induction fuel using Nat.strong_induction_on with
  | _ fuel ih =>
    intro l hl
    match fuel, l with
    | fuel, [] => rw [findAllFramesFuel_nil, findAllFrames, findAllFramesFuel_nil]
    | fuel + 1, b :: s =>
      rw [findAllFrames]
      simp only [List.length_cons, findAllFramesFuel]
      simp only [List.length_cons] at hl
      cases hm : matchFrame (b :: s) with
      | some x =>
        obtain ⟨sym, rest⟩ := x
        have hr : rest.length ≤ s.length := by
          have := matchFrame_length _ _ hm
          simpa using Nat.lt_succ_iff.mp this
        show sym :: findAllFramesFuel fuel rest = sym :: findAllFramesFuel s.length rest
        rw [ih fuel (by omega) rest (by omega), ih s.length (by omega) rest (by omega)]
      | none =>
        show findAllFramesFuel fuel s = findAllFramesFuel s.length s
        rw [ih fuel (by omega) s (by omega), ih s.length (by omega) s (by omega)]

theorem findAllFrames_cons_some (b : Nat) (s sym rest : List Nat)
    (h : matchFrame (b :: s) = some (sym, rest)) :
    findAllFrames (b :: s) = sym :: findAllFrames rest := by
  have hr : rest.length ≤ s.length := by
    have := matchFrame_length _ _ h
    simpa using Nat.lt_succ_iff.mp this
  rw [findAllFrames]
  simp only [List.length_cons, findAllFramesFuel, h]
  rw [findAllFramesFuel_adequate s.length rest (by omega), findAllFrames]

theorem findAllFrames_cons_none (b : Nat) (s : List Nat)
    (h : matchFrame (b :: s) = none) :
    findAllFrames (b :: s) = findAllFrames s := by
  rw [findAllFrames]
  simp only [List.length_cons, findAllFramesFuel, h]
  rw [findAllFramesFuel_adequate s.length s (by omega), findAllFrames]

theorem takeWhile_dropWhile_append_of_stop (p : Nat → Bool) (s t : List Nat)
    (h : s.dropWhile p ≠ []) :
    (s ++ t).takeWhile p = s.takeWhile p ∧ (s ++ t).dropWhile p = s.dropWhile p ++ t := by
  induction s with
  | nil => simp at h
  | cons c s ih =>
    rw [List.dropWhile_cons] at h
    rw [List.cons_append, List.takeWhile_cons, List.takeWhile_cons,
      List.dropWhile_cons, List.dropWhile_cons]
    by_cases hp : p c
    · simp only [hp, if_true]
      rw [if_pos hp] at h
      obtain ⟨h1, h2⟩ := ih h
      exact ⟨by rw [h1], by rw [h2]⟩
    · simp [hp]

theorem takeWhile_dropWhile_append_of_all (p : Nat → Bool) (s t : List Nat)
    (h : s.dropWhile p = []) :
    (s ++ t).takeWhile p = s ++ t.takeWhile p ∧ (s ++ t).dropWhile p = t.dropWhile p := by
  induction s with
  | nil => simp
  | cons c s ih =>
    rw [List.dropWhile_cons] at h
    by_cases hp : p c
    · rw [if_pos] at h
      · obtain ⟨h1, h2⟩ := ih h
        rw [List.cons_append, List.takeWhile_cons, List.dropWhile_cons]
        simp only [hp, if_true]
        refine ⟨?_, by rw [h2]⟩
        rw [h1]
        rfl
      · simpa using hp
    · rw [if_neg (by simpa using hp)] at h
      exact absurd h (by simp)

theorem token_ne_nil (p : Nat → Bool) (s : List Nat) (x : List Nat × List Nat)
    (h : token p s = some x) : s ≠ [] := by
  intro hs
  subst hs
  simp [token] at h

theorem lit_inv (b : Nat) (s rest : List Nat) (h : lit b s = some rest) : s = b :: rest := by
  cases s with
  | nil => simp [lit] at h
  | cons c s' =>
    have hd : lit b (c :: s') = if c = b then some s' else none := rfl
    rw [hd] at h
    by_cases hc : c = b
    · rw [if_pos hc] at h
      injection h with h
      rw [hc, h]
    · rw [if_neg hc] at h
      exact absurd h (by simp)

theorem lit_extend (b : Nat) (s rest t : List Nat) (h : lit b s = some rest) :
    lit b (s ++ t) = some (rest ++ t) := by
  rw [lit_inv b s rest h]
  simp [lit]

theorem token_inv (p : Nat → Bool) (s : List Nat) (x : List Nat × List Nat)
    (h : token p s = some x) :
    x.1 = s.takeWhile p ∧ x.2 = s.dropWhile p ∧ s.takeWhile p ≠ [] := by
  unfold token at h
  by_cases he : (s.takeWhile p).isEmpty
  · simp [he] at h
  · rw [if_neg he] at h
    injection h with h
    rw [← h]
    exact ⟨rfl, rfl, by simpa [List.isEmpty_iff] using he⟩

theorem token_extend_mid (p : Nat → Bool) (s t : List Nat) (x : List Nat × List Nat)
    (h : token p s = some x) (hne : x.2 ≠ []) :
    token p (s ++ t) = some (x.1, x.2 ++ t) := by
  obtain ⟨h1, h2, h3⟩ := token_inv p s x h
  have hd : s.dropWhile p ≠ [] := by rw [← h2]; exact hne
  obtain ⟨e1, e2⟩ := takeWhile_dropWhile_append_of_stop p s t hd
  unfold token
  rw [e1, if_neg (by simpa [List.isEmpty_iff] using h3), e2, ← h1, ← h2]

theorem token_extend_end (p : Nat → Bool) (s t : List Nat) (x : List Nat × List Nat)
    (c : Nat) (h : token p s = some x) (hend : x.2 = []) (hc : p c = false) :
    token p (s ++ c :: t) = some (x.1, c :: t) := by
  obtain ⟨h1, h2, h3⟩ := token_inv p s x h
  have hall : s.dropWhile p = [] := by rw [← h2]; exact hend
  have hs : s.takeWhile p = s := by
    have htd := List.takeWhile_append_dropWhile (p := p) (l := s)
    rw [hall, List.append_nil] at htd
    exact htd
  obtain ⟨e1, e2⟩ := takeWhile_dropWhile_append_of_all p s (c :: t) hall
  have hct : (c :: t).takeWhile p = [] := by rw [List.takeWhile_cons]; simp [hc]
  have hdt : (c :: t).dropWhile p = c :: t := by rw [List.dropWhile_cons]; simp [hc]
  rw [hct, List.append_nil] at e1
  rw [hdt] at e2
  unfold token
  rw [e1, e2, if_neg (by simpa [List.isEmpty_iff, hs] using h3)]
  rw [h1, hs]

theorem matchFrame_ne_hash (c : Nat) (s : List Nat) (hc : c ≠ 35) :
    matchFrame (c :: s) = none := by
  unfold matchFrame
  have : lit 35 (c :: s) = none := by
    have hd : lit 35 (c :: s) = if c = 35 then some s else none := rfl
    rw [hd, if_neg hc]
  rw [this]
  rfl

theorem matchFrame_nil : matchFrame [] = none := rfl

theorem matchFrame_head (l : List Nat) (x : List Nat × List Nat)
    (h : matchFrame l = some x) : ∃ s, l = 35 :: s := by
  unfold matchFrame at h
  simp only [Option.bind_eq_some] at h
  obtain ⟨s1, h1, -⟩ := h
  exact ⟨s1, lit_inv 35 l s1 h1⟩

theorem matchFrame_extend (l t : List Nat) (sym : List Nat) (c : Nat)
    (h : matchFrame l = some (sym, [])) (hc : isSymB c = false) :
    matchFrame (l ++ c :: t) = some (sym, c :: t) := by
  unfold matchFrame at h
  simp only [Option.bind_eq_some] at h
  obtain ⟨s1, h1, d, h2, w1, h3, s2, h4, s3, h5, hx, h6, w2, h7, sy, h8, h9⟩ := h
  have hsy : sy.1 = sym ∧ sy.2 = [] := by
    have hp := (Option.some.injEq _ _).mp h9
    exact ⟨congrArg Prod.fst hp, congrArg Prod.snd hp⟩
  have h1' := lit_extend 35 l s1 (c :: t) h1
  have h2' := token_extend_mid isDigitB s1 (c :: t) d h2 (token_ne_nil _ _ _ h3)
  have h3' := token_extend_mid isSpaceB d.2 (c :: t) w1 h3
    (fun he => by rw [he] at h4; exact absurd h4 (by simp [lit]))
  have h4' := lit_extend 48 w1.2 s2 (c :: t) h4
  have h5' := lit_extend 120 s2 s3 (c :: t) h5
  have h6' := token_extend_mid isHexB s3 (c :: t) hx h6 (token_ne_nil _ _ _ h7)
  have h7' := token_extend_mid isSpaceB hx.2 (c :: t) w2 h7 (token_ne_nil _ _ _ h8)
  have h8' := token_extend_end isSymB w2.2 t sy c h8 hsy.2 hc
  unfold matchFrame
  rw [h1']
  simp only [Option.some_bind]
  rw [h2']
  simp only [Option.some_bind]
  rw [h3']
  simp only [Option.some_bind]
  rw [h4']
  simp only [Option.some_bind]
  rw [h5']
  simp only [Option.some_bind]
  rw [h6']
  simp only [Option.some_bind]
  rw [h7']
  simp only [Option.some_bind]
  rw [h8']
  simp only [Option.some_bind]
  rw [hsy.1]

theorem findAllFrames_hashfree (l t : List Nat) (h : 35 ∉ l) :
    findAllFrames (l ++ t) = findAllFrames t := by
  induction l with
  | nil => rw [List.nil_append]
  | cons c l' ih =>
    rw [List.cons_append,
      findAllFrames_cons_none c (l' ++ t) (matchFrame_ne_hash c _ (fun hc => h (by simp [hc])))]
    exact ih (fun hl => h (by simp [hl]))

theorem findAllFrames_shaped_step (l t : List Nat) (sym : List Nat) (c : Nat)
    (h : matchFrame l = some (sym, [])) (hc : isSymB c = false) :
    findAllFrames (l ++ c :: t) = sym :: findAllFrames (c :: t) := by
  obtain ⟨s, hs⟩ := matchFrame_head l (sym, []) h
  have he := matchFrame_extend l t sym c h hc
  rw [hs] at he ⊢
  rw [List.cons_append]
  rw [findAllFrames_cons_some 35 (s ++ c :: t) sym (c :: t) (by rw [← List.cons_append]; exact he)]

theorem lineShaped_eq_some (l sym : List Nat) (h : lineShaped l = some sym) :
    matchFrame l = some (sym, []) := by
  unfold lineShaped at h
  split at h
  · next sym' heq =>
    injection h with h
    rw [← h]
    exact heq
  · exact absurd h (by simp)

theorem lineShaped_hashfree (l : List Nat) (h : 35 ∉ l) : lineShaped l = none := by
  cases l with
  | nil => rfl
  | cons c s =>
    unfold lineShaped
    rw [matchFrame_ne_hash c s (fun hc => h (by simp [hc]))]

/-- C7 (amended): the extracted Signature is the sequence of symbols
captured by scanning the whole diagnostic with the frame pattern left to
right without overlap; since `\s` matches newlines, a match may span lines.
On any diagnostic whose lines each either are wholly of the frame shape or
contain no `#`, this coincides with the spec's line-by-line description:
the Signature is the symbol of each fully-shaped line, in order. -/
theorem C7_line_extraction (lines : List (List Nat))
    (h : ∀ l ∈ lines, (lineShaped l).isSome ∨ 35 ∉ l) :
    extractSignature (joinLines lines) = lines.filterMap lineShaped := by
  induction lines with
  | nil => rfl
  | cons l rest ih =>
    cases rest with
    | nil =>
      rcases h l (by simp) with hs | hf
      · obtain ⟨sym, hsym⟩ := Option.isSome_iff_exists.mp hs
        have hm := lineShaped_eq_some l sym hsym
        obtain ⟨s, rfl⟩ := matchFrame_head l (sym, []) hm
        show findAllFrames (35 :: s) = List.filterMap lineShaped [35 :: s]
        rw [findAllFrames_cons_some 35 s sym [] hm, findAllFrames_nil]
        simp [hsym]
      · show findAllFrames l = List.filterMap lineShaped [l]
        have hh := findAllFrames_hashfree l [] hf
        rw [List.append_nil] at hh
        rw [hh, findAllFrames_nil]
        simp [lineShaped_hashfree l hf]
    | cons l2 rest2 =>
      have ih' := ih (fun x hx => h x (List.mem_cons_of_mem _ hx))
      show extractSignature (l ++ 10 :: joinLines (l2 :: rest2))
          = List.filterMap lineShaped (l :: l2 :: rest2)
      rcases h l (by simp) with hs | hf
      · obtain ⟨sym, hsym⟩ := Option.isSome_iff_exists.mp hs
        have hm := lineShaped_eq_some l sym hsym
        show findAllFrames (l ++ 10 :: joinLines (l2 :: rest2)) = _
        rw [findAllFrames_shaped_step l (joinLines (l2 :: rest2)) sym 10 hm (by decide)]
        rw [findAllFrames_cons_none 10 _ (matchFrame_ne_hash 10 _ (by decide))]
        simp only [List.filterMap_cons, hsym]
        exact congrArg (sym :: ·) ih'
      · show findAllFrames (l ++ 10 :: joinLines (l2 :: rest2)) = _
        rw [findAllFrames_hashfree l _ hf]
        rw [findAllFrames_cons_none 10 _ (matchFrame_ne_hash 10 _ (by decide))]
        simp only [List.filterMap_cons, lineShaped_hashfree l hf]
        exact ih'

/-- C7 (counterexample): the diagnostic `"#0\n0x1234\nfoo"` has no line
matching the frame shape, yet the analyzer extracts the Signature
`("foo",)` because `\s+` in the regex matches the newlines and the match
spans all three lines — refuting the claim's "taken from each line matching
the shape". -/
theorem C7_spanning_counterexample :
    extractSignature (strBytes "#0\n0x1234\nfoo") = [strBytes "foo"] ∧
      specSignature (strBytes "#0\n0x1234\nfoo") = [] := by
  constructor
  · decide
  · decide

/-- C7 (witness): the spec's scenario — two frame lines `"#0 0x1234
foo::bar"` and `"#1 0x5678 baz"` yield the Signature
`("foo::bar", "baz")`. -/
theorem C7_line_extraction_witness :
    extractSignature (joinLines [strBytes "#0 0x1234 foo::bar", strBytes "#1 0x5678 baz"])
      = [strBytes "foo::bar", strBytes "baz"] := by
  rw [C7_line_extraction _ (by decide)]
  decide

theorem dictFind_dictInsert {K V : Type} [DecidableEq K] (k k' : K) (v : V)
    (d : List (K × V)) :
    dictFind k (dictInsert k' v d) = if k' = k then some v else dictFind k d := by
  induction d with
  | nil =>
    by_cases h : k' = k <;> simp [dictInsert, dictFind, h]
  | cons p d ih =>
    obtain ⟨k2, v2⟩ := p
    by_cases h2 : k2 = k'
    · subst h2
      by_cases hk : k2 = k
      · subst hk
        simp [dictInsert, dictFind]
      · simp [dictInsert, dictFind, hk]
    · by_cases hk2 : k2 = k
      · subst hk2
        have hk : ¬ k' = k2 := fun hc => h2 hc.symm
        simp [dictInsert, dictFind, h2, hk, ih]
      · simp [dictInsert, dictFind, h2, hk2, ih]

theorem foldl_dict_find (k : List (List Nat)) :
    ∀ (recs : List (List Nat × List Nat)) (d : List (List (List Nat) × (List Nat × List Nat))),
      dictFind k (recs.foldl (fun d r => dictInsert (extractSignature r.2) r d) d)
        = ((recs.filter (fun r => extractSignature r.2 = k)).getLast? <|> dictFind k d) := by
  intro recs
  induction recs with
  | nil =>
    intro d
    simp
  | cons r recs ih =>
    intro d
    rw [List.foldl_cons, ih, dictFind_dictInsert]
    by_cases hP : extractSignature r.2 = k
    · rw [if_pos hP]
      rw [List.filter_cons_of_pos (by simpa using hP)]
      cases hfl : recs.filter (fun r => extractSignature r.2 = k) with
      | nil => simp
      | cons q l' =>
        obtain ⟨z, hz⟩ := Option.isSome_iff_exists.mp
          (List.getLast?_isSome.mpr (List.cons_ne_nil q l'))
        rw [List.getLast?_cons_cons, hz]
        simp
    · rw [if_neg hP]
      rw [List.filter_cons_of_neg (by simpa using hP)]

/-- C1 (amended): records with byte-identical extracted frame sequences
share one group, but the retained `(specifier, diagnostic)` representative
is the LAST-encountered record in log order — `stack_traces[strace] = ...`
overwrites on every duplicate — while the group's position in the output
keeps the first occurrence's insertion order.  For every log and key, the
dict lookup returns the last matching record. -/
theorem C1_representative_is_last (recs : List (List Nat × List Nat))
    (k : List (List Nat)) :
    dictFind k (analyzeRecords recs)
      = (recs.filter (fun r => extractSignature r.2 = k)).getLast? := by
  rw [analyzeRecords, foldl_dict_find k recs []]
  cases (recs.filter (fun r => extractSignature r.2 = k)).getLast? <;> simp [dictFind]

/-- C1 (counterexample): two records with specifiers `"A"` and `"B"` and
the same diagnostic `"#0 0x1 a"` collapse into one group whose retained
representative is the later `"B"` record, not the first-encountered `"A"`
one — refuting the claim that later duplicates are discarded. -/
theorem C1_first_representative_counterexample :
    dictFind [[97]] (analyzeRecords
        [([65], strBytes "#0 0x1 a"), ([66], strBytes "#0 0x1 a")])
      = some ([66], strBytes "#0 0x1 a") := by
  decide

theorem mapFst_dictInsert {K V : Type} [DecidableEq K] (k : K) (v : V)
    (d : List (K × V)) :
    (dictInsert k v d).map Prod.fst
      = if k ∈ d.map Prod.fst then d.map Prod.fst else d.map Prod.fst ++ [k] := by
  induction d with
  | nil => simp [dictInsert]
  | cons p d ih =>
    obtain ⟨k2, v2⟩ := p
    by_cases h2 : k2 = k
    · subst h2
      simp [dictInsert]
    · rw [dictInsert, if_neg h2]
      have hm : (k ∈ ((k2, v2) :: d).map Prod.fst) ↔ k ∈ d.map Prod.fst := by
        rw [List.map_cons, List.mem_cons]
        exact ⟨fun h => h.resolve_left (fun hc => h2 hc.symm), fun h => Or.inr h⟩
      by_cases hk : k ∈ d.map Prod.fst
      · rw [if_pos (hm.mpr hk)]
        simp [ih, hk]
      · rw [if_neg (fun hc => hk (hm.mp hc))]
        simp [ih, hk]

theorem keys_dictInsert_nodup {K V : Type} [DecidableEq K] (k : K) (v : V)
    (d : List (K × V)) (h : (d.map Prod.fst).Nodup) :
    ((dictInsert k v d).map Prod.fst).Nodup := by
  rw [mapFst_dictInsert]
  by_cases hk : k ∈ d.map Prod.fst
  · rw [if_pos hk]
    exact h
  · rw [if_neg hk]
    rw [List.nodup_append]
    refine ⟨h, List.nodup_singleton k, ?_⟩
    intro a ha hb
    rw [List.mem_singleton] at hb
    subst hb
    exact hk ha

theorem mem_keys_dictInsert {K V : Type} [DecidableEq K] (k k' : K) (v : V)
    (d : List (K × V)) (h : k ∈ d.map Prod.fst) :
    k ∈ (dictInsert k' v d).map Prod.fst := by
  rw [mapFst_dictInsert]
  by_cases hk : k' ∈ d.map Prod.fst
  · rw [if_pos hk]
    exact h
  · rw [if_neg hk]
    exact List.mem_append_left _ h

theorem self_mem_keys_dictInsert {K V : Type} [DecidableEq K] (k : K) (v : V)
    (d : List (K × V)) : k ∈ (dictInsert k v d).map Prod.fst := by
  rw [mapFst_dictInsert]
  by_cases hk : k ∈ d.map Prod.fst
  · rw [if_pos hk]
    exact hk
  · rw [if_neg hk]
    exact List.mem_append_right _ (by simp)

theorem foldl_keys_nodup :
    ∀ (recs : List (List Nat × List Nat)) (d : List (List (List Nat) × (List Nat × List Nat))),
      (d.map Prod.fst).Nodup →
      ((recs.foldl (fun d r => dictInsert (extractSignature r.2) r d) d).map Prod.fst).Nodup := by
  intro recs
  induction recs with
  | nil => exact fun d h => h
  | cons r recs ih =>
    intro d h
    rw [List.foldl_cons]
    exact ih _ (keys_dictInsert_nodup _ _ _ h)

theorem foldl_keys_mono :
    ∀ (recs : List (List Nat × List Nat)) (d : List (List (List Nat) × (List Nat × List Nat)))
      (x : List (List Nat)), x ∈ d.map Prod.fst →
      x ∈ (recs.foldl (fun d r => dictInsert (extractSignature r.2) r d) d).map Prod.fst := by
  intro recs
  induction recs with
  | nil => exact fun d x h => h
  | cons r recs ih =>
    intro d x h
    rw [List.foldl_cons]
    exact ih _ _ (mem_keys_dictInsert _ _ _ _ h)

theorem foldl_keys_mem :
    ∀ (recs : List (List Nat × List Nat)) (d : List (List (List Nat) × (List Nat × List Nat)))
      (r : List Nat × List Nat), r ∈ recs →
      extractSignature r.2
        ∈ (recs.foldl (fun d r => dictInsert (extractSignature r.2) r d) d).map Prod.fst := by
  intro recs
  induction recs with
  | nil =>
    intro d r h
    exact absurd h (by simp)
  | cons q recs ih =>
    intro d r h
    rw [List.foldl_cons]
    rcases List.mem_cons.mp h with rfl | hmem
    · exact foldl_keys_mono recs _ _ (self_mem_keys_dictInsert _ _ _)
    · exact ih _ r hmem

theorem filter_key_length_one {K V : Type} [DecidableEq K] (x : K) :
    ∀ d : List (K × V), (d.map Prod.fst).Nodup → x ∈ d.map Prod.fst →
      (d.filter (fun e => e.1 = x)).length = 1 := by
  intro d
  induction d with
  | nil =>
    intro _ hm
    simp at hm
  | cons p d ih =>
    intro hnd hm
    rw [List.map_cons, List.nodup_cons] at hnd
    obtain ⟨hp, hnd'⟩ := hnd
    rw [List.map_cons, List.mem_cons] at hm
    by_cases he : p.1 = x
    · rw [List.filter_cons_of_pos (by simpa using he)]
      have hx : x ∉ d.map Prod.fst := he ▸ hp
      have hfl : d.filter (fun e => e.1 = x) = [] := by
        rw [List.filter_eq_nil_iff]
        intro e hed hex
        exact hx ((by simpa using hex : e.1 = x) ▸ List.mem_map_of_mem Prod.fst hed)
      simp [hfl]
    · rw [List.filter_cons_of_neg (by simpa using he)]
      exact ih hnd' (hm.resolve_left (fun hc => he hc.symm))

/-- C9 (amended): for every diagnostic on which the frame pattern finds no
match anywhere in the text, the analyzer — a total function, it never
raises — assigns the empty-sequence Signature, and all such records
collapse into the single group keyed by the empty sequence: the output
holds exactly one entry with key `[]`. -/
theorem C9_empty_sig_single_group (recs : List (List Nat × List Nat))
    (r : List Nat × List Nat) (hr : r ∈ recs) (hsig : extractSignature r.2 = []) :
    ((analyzeRecords recs).filter (fun e => e.1 = ([] : List (List Nat)))).length = 1 := by
  have hnd := foldl_keys_nodup recs [] (by simp)
  have hm := foldl_keys_mem recs [] r hr
  rw [hsig] at hm
  exact filter_key_length_one [] (analyzeRecords recs) hnd hm

/-- C9 (counterexample): the diagnostic `"#1\n0xab\nzz"` contains zero
lines matching the stack-frame shape, yet its Signature is `("zz",)`, not
the empty sequence, because the pattern matches across the newlines —
refuting the claim as stated in line-by-line terms. -/
theorem C9_zero_matching_lines_counterexample :
    specSignature (strBytes "#1\n0xab\nzz") = [] ∧
      extractSignature (strBytes "#1\n0xab\nzz") = [strBytes "zz"] := by
  constructor
  · decide
  · decide

/-- C9 (witness): a log with a single empty-diagnostic record has exactly
one empty-signature group. -/
theorem C9_empty_sig_single_group_witness :
    ((analyzeRecords [([65], [])]).filter (fun e => e.1 = ([] : List (List Nat)))).length = 1 :=
  C9_empty_sig_single_group [([65], [])] ([65], []) (by decide) (by decide)

theorem hexValB_hexDigitB : ∀ n : Nat, n < 16 → hexValB (hexDigitB n) = some n := by
  decide

theorem parseBody_step (q b : Nat) (hq : q = 39 ∨ q = 34) (hb : b < 256) (rest : List Nat) :
    parseBody q (escByte q b ++ rest) = (parseBody q rest).map (fun t => b :: t) := by
  have hdig : ∀ n : Nat, n < 16 → 32 ≤ hexDigitB n ∧ hexDigitB n ≤ 126 := by decide
  rcases hq with rfl | rfl <;>
  · by_cases h92 : b = 92
    · subst h92
      simp only [escByte]
      norm_num
      rw [parseBody.eq_def]
      norm_num
    · by_cases hbq : b = 39
      · subst hbq
        simp only [escByte]
        norm_num
        rw [parseBody.eq_def]
        norm_num
      · by_cases hbq2 : b = 34
        · subst hbq2
          simp only [escByte]
          norm_num
          rw [parseBody.eq_def]
          norm_num
        · by_cases h9 : b = 9
          · subst h9
            simp only [escByte]
            norm_num
            rw [parseBody.eq_def]
            norm_num
          · by_cases h10 : b = 10
            · subst h10
              simp only [escByte]
              norm_num
              rw [parseBody.eq_def]
              norm_num
            · by_cases h13 : b = 13
              · subst h13
                simp only [escByte]
                norm_num
                rw [parseBody.eq_def]
                norm_num
              · by_cases hp : 32 ≤ b ∧ b < 127
                · have he : escByte 39 b = [b] ∧ escByte 34 b = [b] := by
                    constructor <;> simp [escByte, h92, hbq, hbq2, h9, h10, h13, hp]
                  first
                  | rw [he.1, List.cons_append, List.nil_append, parseBody.eq_def]
                  | rw [he.2, List.cons_append, List.nil_append, parseBody.eq_def]
                  norm_num [hbq, hbq2, h92, h10, h13]
                  exact fun hcon => absurd hcon (by omega)
                · have hx16 : b / 16 < 16 := by omega
                  have hx16' : b % 16 < 16 := by omega
                  have he : escByte 39 b = [92, 120, hexDigitB (b / 16), hexDigitB (b % 16)] ∧
                      escByte 34 b = [92, 120, hexDigitB (b / 16), hexDigitB (b % 16)] := by
                    constructor <;> simp [escByte, h92, hbq, hbq2, h9, h10, h13, hp]
                  first
                  | rw [he.1, parseBody.eq_def]
                  | rw [he.2, parseBody.eq_def]
                  norm_num
                  have hv : 16 * (b / 16) + b % 16 = b := by omega
                  simp only [hexValB_hexDigitB (b / 16) hx16,
                    hexValB_hexDigitB (b % 16) hx16', hv]

theorem parseBody_escBytes (q : Nat) (hq : q = 39 ∨ q = 34) :
    ∀ bs : List Nat, (∀ b ∈ bs, b < 256) →
      parseBody q (escBytes q bs ++ [q]) = some bs := by
  intro bs
  induction bs with
  | nil =>
    intro _
    rw [escBytes, List.nil_append]
    rcases hq with rfl | rfl <;> (rw [parseBody.eq_def]; norm_num)
  | cons b bs ih =>
    intro h
    rw [escBytes, List.append_assoc, parseBody_step q b hq (h b (by simp)) _]
    rw [ih (fun x hx => h x (by simp [hx]))]
    rfl

theorem escByte_mem_range (q b c : Nat) (hq : q = 39 ∨ q = 34) (hb : b < 256)
    (hc : c ∈ escByte q b) : 32 ≤ c ∧ c ≤ 126 := by
  have hdig : ∀ n : Nat, n < 16 → 32 ≤ hexDigitB n ∧ hexDigitB n ≤ 126 := by decide
  unfold escByte at hc
  split_ifs at hc with h1 h2 h3 h4 h5 h6
  · simp at hc
    omega
  · simp at hc
    rcases hc with rfl | rfl
    · rcases hq with rfl | rfl <;> omega
    · rcases hq with rfl | rfl <;> omega
  · simp at hc
    omega
  · simp at hc
    omega
  · simp at hc
    omega
  · simp at hc
    omega
  · simp at hc
    rcases hc with rfl | rfl | rfl | rfl
    · omega
    · omega
    · exact hdig _ (by omega)
    · exact hdig _ (by omega)

theorem escBytes_mem_range (q : Nat) (hq : q = 39 ∨ q = 34) :
    ∀ bs : List Nat, (∀ b ∈ bs, b < 256) →
      ∀ c ∈ escBytes q bs, 32 ≤ c ∧ c ≤ 126 := by
  intro bs
  induction bs with
  | nil =>
    intro _ c hc
    simp [escBytes] at hc
  | cons b bs ih =>
    intro h c hc
    rw [escBytes] at hc
    rcases List.mem_append.mp hc with hc | hc
    · exact escByte_mem_range q b c hq (h b (by simp)) hc
    · exact ih (fun x hx => h x (by simp [hx])) c hc

/-- C8: for every byte string — including ones with embedded newlines — the
one-line literal form written to the log (`print(err)`, i.e. Python's
`repr` of the bytes) parses back, via the reader's `literal_eval`, to exactly
the original bytes; and every character of the escaped form is printable
ASCII (0x20–0x7e), so it occupies a single line and never breaks the
two-line record pairing. -/
theorem C8_log_escape_roundtrip (bs : List Nat) (h : ∀ b ∈ bs, b < 256) :
    parseBytesLit (bytesRepr bs) = some bs ∧
      (∀ c ∈ bytesRepr bs, 32 ≤ c ∧ c ≤ 126) ∧ 10 ∉ bytesRepr bs := by
  have hq : reprQuote bs = 39 ∨ reprQuote bs = 34 := by
    unfold reprQuote
    by_cases hcond : 39 ∈ bs ∧ 34 ∉ bs
    · rw [if_pos hcond]
      exact Or.inr rfl
    · rw [if_neg hcond]
      exact Or.inl rfl
  have hrange : ∀ c ∈ bytesRepr bs, 32 ≤ c ∧ c ≤ 126 := by
    intro c hc
    rw [bytesRepr] at hc
    rcases List.mem_cons.mp hc with rfl | hc
    · omega
    · rcases List.mem_cons.mp hc with rfl | hc
      · rcases hq with hq' | hq' <;> omega
      · rcases List.mem_append.mp hc with hc | hc
        · exact escBytes_mem_range _ hq bs h c hc
        · rcases hq with hq' | hq' <;> (simp at hc; omega)
  refine ⟨?_, hrange, fun h10 => by have := hrange 10 h10; omega⟩
  show (if reprQuote bs = 39 ∨ reprQuote bs = 34
      then parseBody (reprQuote bs) (escBytes (reprQuote bs) bs ++ [reprQuote bs])
      else none) = some bs
  rw [if_pos hq]
  exact parseBody_escBytes _ hq bs h

/-- C8 (witness): the bytes `b"f\nb"` (with an embedded newline) round-trip
through the one-line escaped form, which contains no newline byte. -/
theorem C8_log_escape_roundtrip_witness :
    parseBytesLit (bytesRepr [102, 10, 98]) = some [102, 10, 98] ∧
      10 ∉ bytesRepr [102, 10, 98] :=
  ⟨(C8_log_escape_roundtrip [102, 10, 98] (by decide)).1,
   (C8_log_escape_roundtrip [102, 10, 98] (by decide)).2.2⟩

theorem chunkPairs_none_iff {α : Type} :
    ∀ l : List α, (chunkPairs l = none ↔ l.length % 2 = 1)
  | [] => by simp [chunkPairs]
  | [a] => by simp [chunkPairs]
  | a :: b :: rest => by
    rw [chunkPairs]
    rw [Option.map_eq_none']
    rw [chunkPairs_none_iff rest]
    simp only [List.length_cons]
    omega

theorem analyzePairs_parse_ok :
    ∀ (pairs : List (List Nat × List Nat)) (d : List (List (List Nat) × (List Nat × List Nat)))
      (res : List (List (List Nat) × (List Nat × List Nat))),
      analyzePairs pairs d = some res → ∀ pr ∈ pairs, parseBytesLit pr.2 ≠ none := by
  intro pairs
  induction pairs with
  | nil =>
    intro d res _ pr hpr
    exact absurd hpr (by simp)
  | cons p rest ih =>
    intro d res h pr hpr
    rw [analyzePairs] at h
    cases hp : parseBytesLit p.2 with
    | none =>
      rw [hp] at h
      exact absurd h (by simp)
    | some diag =>
      rw [hp] at h
      rcases List.mem_cons.mp hpr with rfl | hmem
      · rw [hp]
        simp
      · exact ih _ res h pr hmem

/-- C10: the analyzer presupposes a well-formed log.  On a log with an odd
number of lines the final one-element chunk fails to unpack into a
`(specifier, diagnostic)` pair and the run raises (modelled as `none`)
rather than skipping the trailing record; and a run that completes without
error implies the line count is even and every record's second line is a
valid escaped bytes literal. -/
theorem C10_analyzer_requires_wellformed_log (lines : List (List Nat)) :
    (lines.length % 2 = 1 → analyzeLog lines = none) ∧
    (∀ res, analyzeLog lines = some res →
      lines.length % 2 = 0 ∧
        ∀ pairs, chunkPairs lines = some pairs →
          ∀ pr ∈ pairs, parseBytesLit pr.2 ≠ none) := by
  constructor
  · intro hodd
    rw [analyzeLog, (chunkPairs_none_iff lines).mpr hodd]
  · intro res hres
    constructor
    · by_contra hcon
      have hodd : lines.length % 2 = 1 := by omega
      rw [analyzeLog, (chunkPairs_none_iff lines).mpr hodd] at hres
      exact absurd hres (by simp)
    · intro pairs hpairs
      rw [analyzeLog, hpairs] at hres
      exact analyzePairs_parse_ok pairs [] res hres

/-- C10 (witness): a one-line log makes the analyzer raise. -/
theorem C10_analyzer_requires_wellformed_log_witness :
    analyzeLog [[120]] = none :=
  (C10_analyzer_requires_wellformed_log [[120]]).1 (by decide)

end BGGP3
